import Mathlib

/-!
Shallow embedding of the `openrgb-fade` repository's core logic, and proofs
about it.

The embedded pieces are:
* `src/fade.rs` — the per-LED fade state machine (`FadeState`, `Brightness`)
  and the per-tick frame update (`FadeLeds::update`);
* `src/key_mappings.rs` — mapping-file parsing/serialization and key-to-LED
  lookup (`KeyMapping`);
* `src/hid.rs` — decoded input reports (`KeyEvent::is_down`,
  `KeyEvent::key_bytes`);
* the calibration loop body from `src/main.rs` (`setup_device`).

Machine integers are modelled as `Nat` with explicit range hypotheses where
a claim depends on the `u8`/`u16` range; Rust byte strings are modelled as
`List Char`; a Rust indexing operation that can panic is modelled as an
`Option`-returning lookup (with `none` standing for the panic).
-/

set_option maxRecDepth 8000

namespace OpenRgbFade

/-! ## Colors

`openrgb2::Color` is an external dependency of the repository (its source is
not part of this repo).  The spec describes its `Div` instance at the
boundary: channelwise integer division with truncation.
-/

/-- An RGB color; each channel is a `u8` modelled as `Nat`. -/
structure Color where
  r : Nat
  g : Nat
  b : Nat
deriving DecidableEq, Repr

/-- `Color::new(0, 0, 0)`, as used in `FadeLeds::update`. -/
def Color.black : Color := ⟨0, 0, 0⟩

/-- Modelled from the spec: the external crate's `Color / n` operator is
channelwise integer division with truncation (the spec's "integer
color-scaling division ... including integer truncation"). -/
def Color.scaleDiv (c : Color) (n : Nat) : Color :=
  ⟨c.r / n, c.g / n, c.b / n⟩

/-! ## The fade state machine (`src/fade.rs`) -/

/-- `Brightness` is a `u8` (`Brightness(u8)` in the source); here its value is
a `Nat`, and claims that depend on the `u8` range carry a `≤ 255` bound.
`Brightness::MAX` is `255`. -/
def Brightness.MAX : Nat := 255

/-- `Brightness::tick`: returns `None` when the value is `0` (leaving it
unchanged), otherwise decrements and returns `Some`.  The in-place mutation is
modelled by returning the new value inside the `Option`. -/
def Brightness.tick (b : Nat) : Option Nat :=
  if b = 0 then none else some (b - 1)

/-- `FadeState` from `src/fade.rs`: `Off`, or `On(Brightness)`. -/
inductive FadeState where
  | Off : FadeState
  | On : Nat → FadeState
deriving DecidableEq, Repr

/-- `FadeState::update`: on `On(brightness)`, run `brightness.tick()`; if the
tick returns `None` the state becomes `Off`, otherwise the state keeps the
decremented brightness.  `Off` is left unchanged. -/
def FadeState.update : FadeState → FadeState
  | .Off => .Off
  | .On b =>
    match Brightness.tick b with
    | none => .Off
    | some b2 => .On b2

/-- `FadeState::get_brightness`: the stored brightness for `On`, `0` for
`Off`. -/
def FadeState.get_brightness : FadeState → Nat
  | .On b => b
  | .Off => 0

/-- A `FadeState` is representable in the source (`Brightness` is a `u8`)
when its brightness is at most `255`. -/
def FadeState.wf (s : FadeState) : Prop := s.get_brightness ≤ 255

instance (s : FadeState) : Decidable s.wf := by
  unfold FadeState.wf; infer_instance

/-- `n` successive calls of `FadeState::update` (one per frame tick). -/
def updateN : Nat → FadeState → FadeState
  | 0, s => s
  | n + 1, s => updateN n s.update

/-! ## Decoded input reports (`src/hid.rs`) -/

/-- `KeyEvent(Vec<u8>)`: a decoded input report, a vector of bytes. -/
structure KeyEvent where
  bytes : List Nat
deriving DecidableEq, Repr

/-- `KeyEvent::is_down`: `self.0.len() >= 5 && self.0[4] > 0`.  The `&&`
short-circuits, so the index at offset `4` is only evaluated when the length
check has passed; `List.getD` reproduces that in-bounds read. -/
def KeyEvent.is_down (e : KeyEvent) : Bool :=
  decide (5 ≤ e.bytes.length) && decide (0 < e.bytes.getD 4 0)

/-- `KeyEvent::key_bytes`: `u16::from_ne_bytes([self.0[2], self.0[3]])`.  The
two unchecked indexings panic when the report is shorter than 4 bytes; the
panic is modelled by `none`.  Byte order is native-endian; little-endian
(byte 2 is the low byte) is used here, and no claim depends on the order. -/
def KeyEvent.key_bytes (e : KeyEvent) : Option Nat :=
  match e.bytes.get? 2, e.bytes.get? 3 with
  | some lo, some hi => some (lo + 256 * hi)
  | _, _ => none

/-! ## Key mappings (`src/key_mappings.rs`): lookup -/

/-- `KeyMapping(Vec<u16>)`: the ordered sequence of raw key codes, position =
LED index. -/
structure KeyMapping where
  codes : List Nat
deriving DecidableEq, Repr

/-- Helper for `KeyMapping::get_led`: the source iterates
`enumerate().find_map(...)`; this recursion carries the running enumeration
index. -/
def getLedFrom (codes : List Nat) (key : Nat) (idx : Nat) : Option Nat :=
  match codes with
  | [] => none
  | c :: rest => if key = c then some idx else getLedFrom rest key (idx + 1)

/-- `KeyMapping::get_led`: the first index (in iteration order) whose stored
code equals `key`, if any. -/
def KeyMapping.get_led (m : KeyMapping) (key : Nat) : Option Nat :=
  getLedFrom m.codes key 0

/-! ## The frame driver's per-tick update (`FadeLeds::update` in
`src/fade.rs`)

`FadeLeds` holds one `FadeState` per LED (`state: Vec<FadeState>`), here a
`List FadeState`.  One call of `FadeLeds::update` (one tick) is split into
its two phases exactly as in the source: first every drained event that
`is_down()` and maps to a LED triggers that LED, then every LED is advanced
one tick and its color staged.
-/

/-- One iteration of the event loop in `FadeLeds::update`: if the event
`is_down()` and its key code maps to a LED, that LED's state is set to
`On(Brightness::MAX)`.  The `none` branch for `key_bytes` models the
panicking indexing; it is unreachable here because `is_down()` has already
checked `len >= 5` (see `key_bytes_total_of_is_down`). -/
def applyEvent (km : KeyMapping) (st : List FadeState) (e : KeyEvent) :
    List FadeState :=
  if e.is_down then
    match e.key_bytes with
    | some key =>
      match km.get_led key with
      | some led => st.set led (FadeState.On Brightness.MAX)
      | none => st
    | none => st
  else st

/-- The whole event loop of `FadeLeds::update`, over the drained events in
channel order. -/
def processEvents (km : KeyMapping) (st : List FadeState)
    (events : List KeyEvent) : List FadeState :=
  events.foldl (applyEvent km) st

/-- The color staged for one LED in `FadeLeds::update`, as a function of the
state already advanced by `state.update()`: black when the brightness read
back is `0`, otherwise `color / (255 - brightness)`. -/
def color_for (base : Color) (s : FadeState) : Color :=
  if s.get_brightness = 0 then Color.black
  else Color.scaleDiv base (255 - s.get_brightness)

/-- One full call of `FadeLeds::update` (one tick), minus the transport:
process the drained events, then advance every LED and stage its color.
Returns the new state vector and the staged per-LED colors in LED index
order. -/
def fadeUpdate (base : Color) (km : KeyMapping) (events : List KeyEvent)
    (st : List FadeState) : List FadeState × List Color :=
  let st1 := processEvents km st events
  (st1.map FadeState.update, st1.map fun s => color_for base s.update)

/-! ## Key mappings (`src/key_mappings.rs`): file format

Rust strings are modelled as `List Char`.  `as_file_string` is
`format!("{}", key)` per code joined with `"\n"`; `parse_from_file` is
`split("\n")` followed by `str::parse::<u16>` on every segment, failing (the
`Option` is `none`) when any segment fails to parse.
-/

/-- The decimal digit character for a value `d < 10` (`'0'` is code 48). -/
def toDigitChar (d : Nat) : Char := Char.ofNat (48 + d)

/-- Decimal rendering of a positive `Nat`, accumulating most significant
digits to the front (the usual div/mod digit loop behind `format!`). -/
def natToCharsAux : Nat → List Char → List Char
  | 0, acc => acc
  | n + 1, acc =>
    natToCharsAux ((n + 1) / 10) (toDigitChar ((n + 1) % 10) :: acc)
decreasing_by exact Nat.div_lt_self (Nat.succ_pos n) (by omega)

/-- `format!("{}", n)` for an unsigned integer: its decimal digits, `"0"` for
zero. -/
def natToChars (n : Nat) : List Char :=
  if n = 0 then [toDigitChar 0] else natToCharsAux n []

/-- The numeric value of a decimal digit character, `none` for a non-digit
(`char::is_ascii_digit` gate inside integer parsing). -/
def digitVal (c : Char) : Option Nat :=
  if 48 ≤ c.toNat ∧ c.toNat ≤ 57 then some (c.toNat - 48) else none

/-- The digit-accumulation loop of `str::parse` for unsigned integers: fails
on the first non-digit character. -/
def parseDigitsAux (acc : Nat) : List Char → Option Nat
  | [] => some acc
  | c :: rest =>
    match digitVal c with
    | some d => parseDigitsAux (acc * 10 + d) rest
    | none => none

/-- The sign handling of `str::parse` for unsigned integers: one optional
leading `'+'` is dropped (a leading `'-'`, or any other character, is left
in place and later fails the digit check). -/
def stripPlus : List Char → List Char
  | '+' :: rest => rest
  | s => s

/-- `str::parse::<u16>`: an optional leading `'+'`, then at least one decimal
digit, and the value must fit in 16 bits; anything else fails.  In
particular the empty string fails. -/
def parse_u16 (s : List Char) : Option Nat :=
  if stripPlus s = [] then none
  else
    match parseDigitsAux 0 (stripPlus s) with
    | some n => if n ≤ 65535 then some n else none
    | none => none

/-- Rust's `str::split("\n")`: the (always nonempty) list of segments between
newline characters; `"".split` gives `[""]`, and a trailing newline yields a
trailing empty segment. -/
def splitOnNl : List Char → List (List Char)
  | [] => [[]]
  | c :: rest =>
    if c = '\n' then [] :: splitOnNl rest
    else
      match splitOnNl rest with
      | [] => [[c]]
      | l :: ls => (c :: l) :: ls

/-- `Vec::join("\n")`: the segments interleaved with single newlines, no
trailing newline. -/
def joinNl : List (List Char) → List Char
  | [] => []
  | [x] => x
  | x :: y :: rest => x ++ '\n' :: joinNl (y :: rest)

/-- The `collect::<Result<Vec<u16>, _>>()` step of `parse_from_file`: parse
every segment, failing if any segment fails. -/
def parseAll : List (List Char) → Option (List Nat)
  | [] => some []
  | l :: rest =>
    match parse_u16 l, parseAll rest with
    | some n, some ns => some (n :: ns)
    | _, _ => none

/-- `KeyMapping::parse_from_file`: split the file contents on `"\n"`, parse
every line as a `u16`, and wrap the resulting vector; `none` when any line
fails to parse. -/
def KeyMapping.parse_from_file (s : List Char) : Option KeyMapping :=
  (parseAll (splitOnNl s)).map KeyMapping.mk

/-- `KeyMapping::as_file_string`: one decimal integer per line in index
order, joined with `"\n"` (no trailing newline). -/
def KeyMapping.as_file_string (m : KeyMapping) : List Char :=
  joinNl (m.codes.map natToChars)

/-! ## The calibration loop body (`setup_device` in `src/main.rs`) -/

/-- One iteration of the calibration flow's `get_next_unique_event` loop in
`setup_device`: read one report and call `key_bytes()` on it, with no
`is_down()` guard; then either skip an already-seen code or record the new
one.  The unguarded `key_bytes()` is the fallible model above, so the result
is `none` when the indexing panics (report shorter than 4 bytes),
`some none` when the loop continues, and `some (some key)` when a novel key
is recorded. -/
def calibStep (seen : List Nat) (e : KeyEvent) : Option (Option Nat) :=
  match e.key_bytes with
  | none => none
  | some key => if key ∈ seen then some none else some (some key)

/-! ## Specification-side vocabulary used by the proofs -/

/-- A decimal digit character (codes 48–57). -/
def isDigitChar (c : Char) : Prop := 48 ≤ c.toNat ∧ c.toNat ≤ 57

instance (c : Char) : Decidable (isDigitChar c) := by
  unfold isDigitChar
  infer_instance

/-- The value denoted by a digit string appended to an accumulator — the
mathematical reading of `parseDigitsAux`. -/
def digitsVal (acc : Nat) (cs : List Char) : Nat :=
  cs.foldl (fun a c => a * 10 + (c.toNat - 48)) acc

/-! # Theorems -/

/-! ## Stepping the fade state machine -/

theorem updateN_succ_right (n : Nat) (s : FadeState) :
    updateN (n + 1) s = (updateN n s).update := by
  induction n generalizing s with
  | zero => rfl
  | succ m ih =>
    show updateN (m + 1) s.update = _
    rw [ih s.update]
    rfl

theorem update_On_pos (b : Nat) (hb : 0 < b) :
    (FadeState.On b).update = FadeState.On (b - 1) := by
  simp [FadeState.update, Brightness.tick, Nat.pos_iff_ne_zero.mp hb]

theorem update_On_zero : (FadeState.On 0).update = FadeState.Off := by
  simp [FadeState.update, Brightness.tick]

theorem updateN_On_le (k b : Nat) (hk : k ≤ b) :
    updateN k (FadeState.On b) = FadeState.On (b - k) := by
  induction k generalizing b with
  | zero => rfl
  | succ m ih =>
    have hb : 0 < b := Nat.lt_of_lt_of_le (Nat.succ_pos m) hk
    show updateN m (FadeState.On b).update = _
    rw [update_On_pos b hb, ih (b - 1) (by omega)]
    congr 1
    omega

/-! ## Basic facts about the fade state machine -/

theorem get_brightness_update_le (s : FadeState) (h : s.wf) :
    s.update.get_brightness ≤ 254 := by
  cases s with
  | Off => simp [FadeState.update, FadeState.get_brightness]
  | On b =>
    by_cases hb : b = 0
    · subst hb
      simp [FadeState.update, Brightness.tick, FadeState.get_brightness]
    · have hb255 : b ≤ 255 := h
      simp only [FadeState.update, Brightness.tick, if_neg hb,
        FadeState.get_brightness]
      omega

/-! ## Claim C1: ticks from `On(MAX)` to `Off` -/

/-- C1, counterexample: with the implemented step of 1, the state after the
255th advance of `On(255)` is `On(0)`, not `Off` — so `Off` is not reached
in `ceil(255 / 1) = 255` ticks as the claim states. -/
theorem updateN255_not_off :
    updateN 255 (FadeState.On 255) = FadeState.On 0 ∧
    FadeState.On 0 ≠ FadeState.Off := by
  constructor
  · decide
  · decide

/-- C1, amended: starting from `On(255)` with the per-tick step of 1, after
`k ≤ 255` advances the state is `On(255 - k)` — still `On`, never `Off` —
and the state first becomes `Off` after the 256th advance, i.e. in
`ceil(255 / step) + 1 = 256` ticks. -/
theorem fade_reaches_off_in_256 :
    (∀ k, k ≤ 255 →
      updateN k (FadeState.On 255) = FadeState.On (255 - k) ∧
      updateN k (FadeState.On 255) ≠ FadeState.Off) ∧
    updateN 256 (FadeState.On 255) = FadeState.Off := by
  constructor
  · intro k hk
    have h := updateN_On_le k 255 hk
    refine ⟨h, ?_⟩
    rw [h]
    intro hcontra
    exact FadeState.noConfusion hcontra
  · have h := updateN_On_le 255 255 (Nat.le_refl 255)
    rw [updateN_succ_right, h]
    decide

/-- Witness for `fade_reaches_off_in_256` at `k = 3`. -/
theorem fade_reaches_off_in_256_witness :
    (3 ≤ 255 ∧ updateN 3 (FadeState.On 255) = FadeState.On 252) ∧
    updateN 256 (FadeState.On 255) = FadeState.Off :=
  ⟨⟨by decide, (fade_reaches_off_in_256.1 3 (by decide)).1⟩,
    fade_reaches_off_in_256.2⟩

/-! ## Claim C2: the color formula -/

/-- C2: for brightness `b ∈ [1, 255)` the color computed for `On(b)` is each
channel of the base color integer-divided (truncating) by `255 - b`; the
computed color is black for `On(0)` and for `Off`. -/
theorem color_for_spec (b : Nat) (base : Color) (h1 : 1 ≤ b) (h2 : b < 255) :
    color_for base (FadeState.On b) =
      ⟨base.r / (255 - b), base.g / (255 - b), base.b / (255 - b)⟩ ∧
    color_for base (FadeState.On 0) = Color.black ∧
    color_for base FadeState.Off = Color.black := by
  refine ⟨?_, ?_, ?_⟩
  · have hb : b ≠ 0 := by omega
    simp [color_for, FadeState.get_brightness, Color.scaleDiv, hb]
  · simp [color_for, FadeState.get_brightness]
  · simp [color_for, FadeState.get_brightness]

/-- Witness for `color_for_spec` at `b = 5`, base color `(255, 100, 255)`. -/
theorem color_for_spec_witness :
    (1 ≤ 5 ∧ 5 < 255) ∧
    (color_for ⟨255, 100, 255⟩ (FadeState.On 5) =
        ⟨255 / (255 - 5), 100 / (255 - 5), 255 / (255 - 5)⟩ ∧
      color_for ⟨255, 100, 255⟩ (FadeState.On 0) = Color.black ∧
      color_for ⟨255, 100, 255⟩ FadeState.Off = Color.black) :=
  ⟨⟨by decide, by decide⟩,
    color_for_spec 5 ⟨255, 100, 255⟩ (by decide) (by decide)⟩

/-! ## Claim C3: the division in `FadeLeds::update` is safe -/

theorem wf_of_mem_set (st : List FadeState) (i : Nat) (v : FadeState)
    (hv : v.wf) (h : ∀ s ∈ st, s.wf) : ∀ s ∈ st.set i v, s.wf := by
  induction st generalizing i with
  | nil =>
    intro s hs
    cases i <;> simp at hs
  | cons a rest ih =>
    cases i with
    | zero =>
      intro s hs
      simp only [List.set] at hs
      rcases List.mem_cons.mp hs with h1 | h1
      · rw [h1]; exact hv
      · exact h s (List.mem_cons_of_mem a h1)
    | succ j =>
      intro s hs
      simp only [List.set] at hs
      rcases List.mem_cons.mp hs with h1 | h1
      · rw [h1]; exact h a (List.mem_cons_self a rest)
      · exact ih j (fun t ht => h t (List.mem_cons_of_mem a ht)) s h1

theorem wf_applyEvent (km : KeyMapping) (st : List FadeState) (e : KeyEvent)
    (h : ∀ s ∈ st, s.wf) : ∀ s ∈ applyEvent km st e, s.wf := by
  intro s hs
  unfold applyEvent at hs
  split at hs
  · split at hs
    · split at hs
      · exact wf_of_mem_set st _ _ (by decide) h s hs
      · exact h s hs
    · exact h s hs
  · exact h s hs

theorem wf_processEvents (km : KeyMapping) (events : List KeyEvent)
    (st : List FadeState) (h : ∀ s ∈ st, s.wf) :
    ∀ s ∈ processEvents km st events, s.wf := by
  induction events generalizing st with
  | nil => exact h
  | cons e rest ih => exact ih (applyEvent km st e) (wf_applyEvent km st e h)

/-- C3: in any tick of `FadeLeds::update`, for every state read back after
the per-tick advance, the post-decrement brightness is at most 254; whenever
the division branch is taken (brightness nonzero), the divisor
`255 - brightness` lies in `[1, 255]` — in particular it is never zero. -/
theorem divisor_in_range (km : KeyMapping) (events : List KeyEvent)
    (st : List FadeState) (hwf : ∀ s ∈ st, s.wf) :
    ∀ s ∈ processEvents km st events,
      s.update.get_brightness ≤ 254 ∧
      (s.update.get_brightness ≠ 0 →
        1 ≤ 255 - s.update.get_brightness ∧
        255 - s.update.get_brightness ≤ 255) := by
  intro s hs
  have hw : s.wf := wf_processEvents km events st hwf s hs
  have hle := get_brightness_update_le s hw
  exact ⟨hle, fun _ => by omega⟩

/-- Witness for `divisor_in_range`: one `On(255)` LED, one down event for the
mapped key 100. -/
theorem divisor_in_range_witness :
    (∀ s ∈ [FadeState.On 255], s.wf) ∧
    (∀ s ∈ processEvents ⟨[100]⟩ [FadeState.On 255]
        [⟨[0, 0, 100, 0, 1]⟩],
      s.update.get_brightness ≤ 254 ∧
      (s.update.get_brightness ≠ 0 →
        1 ≤ 255 - s.update.get_brightness ∧
        255 - s.update.get_brightness ≤ 255)) :=
  ⟨by decide,
    divisor_in_range ⟨[100]⟩ [⟨[0, 0, 100, 0, 1]⟩] [FadeState.On 255]
      (by decide)⟩

/-! ## Claim C4: a down event shows at full brightness in the same tick -/

theorem get?_set_self {α : Type} (l : List α) (i : Nat) (v : α)
    (h : i < l.length) : (l.set i v).get? i = some v := by
  induction l generalizing i with
  | nil => simp at h
  | cons a rest ih =>
    cases i with
    | zero => rfl
    | succ j =>
      simp only [List.set, List.get?]
      exact ih j (by simpa using h)

theorem get?_set_ne {α : Type} (l : List α) (j i : Nat) (v : α)
    (h : j ≠ i) : (l.set j v).get? i = l.get? i := by
  induction l generalizing i j with
  | nil => rfl
  | cons a rest ih =>
    cases j with
    | zero =>
      cases i with
      | zero => exact absurd rfl h
      | succ i2 => rfl
    | succ j2 =>
      cases i with
      | zero => rfl
      | succ i2 =>
        simp only [List.set, List.get?]
        exact ih j2 i2 (fun hc => h (by rw [hc]))

theorem get?_map_eq {α β : Type} (f : α → β) (l : List α) (i : Nat) :
    (l.map f).get? i = (l.get? i).map f := by
  induction l generalizing i with
  | nil => rfl
  | cons a rest ih =>
    cases i with
    | zero => rfl
    | succ j => exact ih j

theorem applyEvent_length (km : KeyMapping) (st : List FadeState)
    (e : KeyEvent) : (applyEvent km st e).length = st.length := by
  unfold applyEvent
  split
  · split
    · split
      · exact List.length_set st _ _
      · rfl
    · rfl
  · rfl

theorem applyEvent_keeps_max (km : KeyMapping) (st : List FadeState)
    (e : KeyEvent) (i : Nat)
    (h : st.get? i = some (FadeState.On Brightness.MAX)) :
    (applyEvent km st e).get? i = some (FadeState.On Brightness.MAX) := by
  unfold applyEvent
  split
  · split
    · split
      · rename_i key led hled
        by_cases hli : led = i
        · rw [hli]
          have hi : i < st.length := by
            by_contra hlt
            rw [List.get?_eq_none.mpr (by omega)] at h
            exact Option.noConfusion h
          exact get?_set_self st i _ hi
        · rw [get?_set_ne st led i _ hli]
          exact h
      · exact h
    · exact h
  · exact h

theorem processEvents_keeps_max (km : KeyMapping) (events : List KeyEvent)
    (st : List FadeState) (i : Nat)
    (h : st.get? i = some (FadeState.On Brightness.MAX)) :
    (processEvents km st events).get? i =
      some (FadeState.On Brightness.MAX) := by
  induction events generalizing st with
  | nil => exact h
  | cons e rest ih =>
    exact ih (applyEvent km st e) (applyEvent_keeps_max km st e i h)

theorem processEvents_trigger (km : KeyMapping) (events : List KeyEvent)
    (st : List FadeState) (i : Nat) (hi : i < st.length)
    (h : ∃ e ∈ events, e.is_down = true ∧
      e.key_bytes.bind km.get_led = some i) :
    (processEvents km st events).get? i =
      some (FadeState.On Brightness.MAX) := by
  induction events generalizing st with
  | nil =>
    rcases h with ⟨e, he, _⟩
    simp at he
  | cons e rest ih =>
    rcases h with ⟨e2, he2, hdown, hbind⟩
    rcases List.mem_cons.mp he2 with heq | hmem
    · have happ : (applyEvent km st e2).get? i =
          some (FadeState.On Brightness.MAX) := by
        rcases hkb : e2.key_bytes with _ | key
        · rw [hkb] at hbind
          simp at hbind
        · rw [hkb] at hbind
          have hbind2 : km.get_led key = some i := hbind
          simp only [applyEvent, hdown, if_true, hkb, hbind2]
          exact get?_set_self st i _ hi
      show (processEvents km (applyEvent km st e) rest).get? i = _
      rw [← heq]
      exact processEvents_keeps_max km rest _ i happ
    · have hlen : i < (applyEvent km st e).length := by
        rw [applyEvent_length]
        exact hi
      exact ih (applyEvent km st e) hlen ⟨e2, hmem, hdown, hbind⟩

theorem color_for_update_max (base : Color) :
    color_for base (FadeState.On Brightness.MAX).update = base := by
  cases base with
  | mk r g b =>
    show color_for _ (FadeState.On 254) = _
    simp [color_for, FadeState.get_brightness, Color.scaleDiv]

/-- C4: triggers from drained down events are applied before the per-tick
advance, so for any event list containing a down event whose key code maps
to LED `i`, the color staged for LED `i` in the same call of
`FadeLeds::update` is exactly the configured base color (the advance leaves
brightness 254, so the divisor is `255 - 254 = 1`). -/
theorem down_event_full_brightness (base : Color) (km : KeyMapping)
    (events : List KeyEvent) (st : List FadeState) (i : Nat)
    (hi : i < st.length)
    (h : ∃ e ∈ events, e.is_down = true ∧
      e.key_bytes.bind km.get_led = some i) :
    (fadeUpdate base km events st).2.get? i = some base := by
  have h1 := processEvents_trigger km events st i hi h
  show ((processEvents km st events).map
    fun s => color_for base s.update).get? i = some base
  rw [get?_map_eq, h1]
  simp [color_for_update_max]

/-- Witness for `down_event_full_brightness`: mapping `[100, 200]`, one down
report for key code `200`, two `Off` LEDs; the staged color for LED 1 is the
base color. -/
theorem down_event_full_brightness_witness :
    (1 < 2 ∧
      ∃ e ∈ [KeyEvent.mk [0, 0, 200, 0, 1]], e.is_down = true ∧
        e.key_bytes.bind (KeyMapping.mk [100, 200]).get_led = some 1) ∧
    (fadeUpdate ⟨255, 100, 255⟩ ⟨[100, 200]⟩ [⟨[0, 0, 200, 0, 1]⟩]
      [FadeState.Off, FadeState.Off]).2.get? 1 = some ⟨255, 100, 255⟩ :=
  ⟨⟨by decide, by decide⟩,
    down_event_full_brightness ⟨255, 100, 255⟩ ⟨[100, 200]⟩
      [⟨[0, 0, 200, 0, 1]⟩] [FadeState.Off, FadeState.Off] 1 (by decide)
      (by decide)⟩

/-! ## Claim C5: drain-order scenario -/

/-- C5, counterexample: with mapping `[100, 200]` and the one-tick event list
`[down(100), down(200), down(100)]`, the states after the tick completes
(after `FadeLeds::update`, whose per-LED advance runs after the triggers)
are `[On(254), On(254)]`, not `[On(MAX), On(MAX)]` as the claim states. -/
theorem tick_end_state_not_max :
    (fadeUpdate ⟨255, 100, 255⟩ ⟨[100, 200]⟩
      [⟨[0, 0, 100, 0, 1]⟩, ⟨[0, 0, 200, 0, 1]⟩, ⟨[0, 0, 100, 0, 1]⟩]
      [FadeState.Off, FadeState.Off]).1 =
        [FadeState.On 254, FadeState.On 254] ∧
    [FadeState.On 254, FadeState.On 254] ≠
      [FadeState.On Brightness.MAX, FadeState.On Brightness.MAX] := by
  constructor
  · decide
  · decide

/-- C5, amended: the three events trigger LED 0, then LED 1, then LED 0
again (each step shown on the running state); after the event-processing
phase both LEDs are `On(MAX)` — re-triggering at maximum within one tick is
idempotent — and after the tick completes (the per-tick advance having run)
both LEDs are `On(254)`. -/
theorem drain_order_scenario :
    applyEvent ⟨[100, 200]⟩ [FadeState.Off, FadeState.Off]
        ⟨[0, 0, 100, 0, 1]⟩ =
      [FadeState.On Brightness.MAX, FadeState.Off] ∧
    applyEvent ⟨[100, 200]⟩ [FadeState.On Brightness.MAX, FadeState.Off]
        ⟨[0, 0, 200, 0, 1]⟩ =
      [FadeState.On Brightness.MAX, FadeState.On Brightness.MAX] ∧
    applyEvent ⟨[100, 200]⟩
        [FadeState.On Brightness.MAX, FadeState.On Brightness.MAX]
        ⟨[0, 0, 100, 0, 1]⟩ =
      [FadeState.On Brightness.MAX, FadeState.On Brightness.MAX] ∧
    processEvents ⟨[100, 200]⟩ [FadeState.Off, FadeState.Off]
        [⟨[0, 0, 100, 0, 1]⟩, ⟨[0, 0, 200, 0, 1]⟩, ⟨[0, 0, 100, 0, 1]⟩] =
      [FadeState.On Brightness.MAX, FadeState.On Brightness.MAX] ∧
    (fadeUpdate ⟨255, 100, 255⟩ ⟨[100, 200]⟩
      [⟨[0, 0, 100, 0, 1]⟩, ⟨[0, 0, 200, 0, 1]⟩, ⟨[0, 0, 100, 0, 1]⟩]
      [FadeState.Off, FadeState.Off]).1 =
        [FadeState.On 254, FadeState.On 254] := by
  refine ⟨?_, ?_, ?_, ?_, ?_⟩ <;> decide

/-! ## Decimal rendering and parsing of `u16` values -/

theorem toDigitChar_toNat (d : Nat) (h : d < 10) :
    (toDigitChar d).toNat = 48 + d := by
  interval_cases d <;> decide

theorem isDigitChar_toDigitChar (d : Nat) (h : d < 10) :
    isDigitChar (toDigitChar d) := by
  unfold isDigitChar
  rw [toDigitChar_toNat d h]
  omega

theorem natToCharsAux_append (n : Nat) :
    ∀ acc, natToCharsAux n acc = natToCharsAux n [] ++ acc := by
  induction n using Nat.strong_induction_on with
  | _ n ih =>
    intro acc
    rcases Nat.eq_zero_or_pos n with hn | hn
    · subst hn
      simp [natToCharsAux]
    · obtain ⟨m, rfl⟩ : ∃ m, n = m + 1 := ⟨n - 1, by omega⟩
      have hlt : (m + 1) / 10 < m + 1 := Nat.div_lt_self (Nat.succ_pos m)
        (by omega)
      rw [natToCharsAux, natToCharsAux,
        ih _ hlt (toDigitChar ((m + 1) % 10) :: acc),
        ih _ hlt [toDigitChar ((m + 1) % 10)]]
      simp

theorem natToCharsAux_digits (n : Nat) :
    ∀ c ∈ natToCharsAux n [], isDigitChar c := by
  induction n using Nat.strong_induction_on with
  | _ n ih =>
    rcases Nat.eq_zero_or_pos n with hn | hn
    · subst hn
      intro c hc
      simp [natToCharsAux] at hc
    · obtain ⟨m, rfl⟩ : ∃ m, n = m + 1 := ⟨n - 1, by omega⟩
      intro c hc
      rw [natToCharsAux, natToCharsAux_append] at hc
      rcases List.mem_append.mp hc with h1 | h1
      · exact ih _ (Nat.div_lt_self (Nat.succ_pos m) (by omega)) c h1
      · have hceq : c = toDigitChar ((m + 1) % 10) := by simpa using h1
        rw [hceq]
        exact isDigitChar_toDigitChar _ (Nat.mod_lt _ (by omega))

theorem natToChars_digits (n : Nat) : ∀ c ∈ natToChars n, isDigitChar c := by
  unfold natToChars
  split
  · intro c hc
    have hceq : c = toDigitChar 0 := by simpa using hc
    rw [hceq]
    exact isDigitChar_toDigitChar 0 (by omega)
  · exact natToCharsAux_digits n

theorem natToChars_ne_nil (n : Nat) : natToChars n ≠ [] := by
  unfold natToChars
  split
  · simp
  · rename_i hn
    obtain ⟨m, rfl⟩ : ∃ m, n = m + 1 := ⟨n - 1, by omega⟩
    rw [natToCharsAux, natToCharsAux_append]
    simp

theorem parseDigitsAux_eq (cs : List Char) :
    ∀ acc, (∀ c ∈ cs, isDigitChar c) →
      parseDigitsAux acc cs = some (digitsVal acc cs) := by
  induction cs with
  | nil => intro acc _; rfl
  | cons c rest ih =>
    intro acc h
    have hc : isDigitChar c := h c (List.mem_cons_self c rest)
    have hc2 : 48 ≤ c.toNat ∧ c.toNat ≤ 57 := hc
    have hdv : digitVal c = some (c.toNat - 48) := by
      unfold digitVal
      exact if_pos hc2
    show (match digitVal c with
      | some d => parseDigitsAux (acc * 10 + d) rest
      | none => none) = _
    rw [hdv]
    show parseDigitsAux (acc * 10 + (c.toNat - 48)) rest =
      some (digitsVal acc (c :: rest))
    rw [ih (acc * 10 + (c.toNat - 48))
      (fun x hx => h x (List.mem_cons_of_mem c hx))]
    rfl

theorem natToCharsAux_val (n : Nat) (hn : 0 < n) :
    digitsVal 0 (natToCharsAux n []) = n := by
  induction n using Nat.strong_induction_on with
  | _ n ih =>
    obtain ⟨m, rfl⟩ : ∃ m, n = m + 1 := ⟨n - 1, by omega⟩
    rw [natToCharsAux, natToCharsAux_append]
    unfold digitsVal
    rw [List.foldl_append]
    show (List.foldl _ _ (natToCharsAux ((m + 1) / 10) [])) * 10 +
      ((toDigitChar ((m + 1) % 10)).toNat - 48) = m + 1
    rw [toDigitChar_toNat _ (Nat.mod_lt _ (by omega))]
    rcases Nat.eq_zero_or_pos ((m + 1) / 10) with h10 | h10
    · rw [h10]
      show (digitsVal 0 (natToCharsAux 0 [])) * 10 + _ = _
      have hz : digitsVal 0 (natToCharsAux 0 []) = 0 := by
        rw [natToCharsAux]
        rfl
      rw [hz]
      omega
    · have hlt : (m + 1) / 10 < m + 1 := Nat.div_lt_self (Nat.succ_pos m)
        (by omega)
      have hv := ih _ hlt h10
      unfold digitsVal at hv
      rw [hv]
      omega

theorem natToChars_val (n : Nat) : digitsVal 0 (natToChars n) = n := by
  unfold natToChars
  split
  · rename_i hn
    rw [hn]
    decide
  · rename_i hn
    exact natToCharsAux_val n (by omega)

theorem stripPlus_no_plus (c : Char) (cs : List Char) (h : c ≠ '+') :
    stripPlus (c :: cs) = c :: cs := by
  unfold stripPlus
  split
  · rename_i rest heq
    injection heq with h1 h2
    exact absurd h1 h
  · rfl

theorem parse_u16_natToChars (n : Nat) (h : n ≤ 65535) :
    parse_u16 (natToChars n) = some n := by
  have hdig := natToChars_digits n
  have hne := natToChars_ne_nil n
  obtain ⟨c, cs, hcs⟩ : ∃ c cs, natToChars n = c :: cs := by
    cases hx : natToChars n with
    | nil => exact absurd hx hne
    | cons c cs => exact ⟨c, cs, rfl⟩
  have hc : isDigitChar c := hdig c (by rw [hcs]; exact List.mem_cons_self c cs)
  have hplus : c ≠ '+' := by
    intro hcp
    rw [hcp] at hc
    exact absurd hc (by decide)
  unfold parse_u16
  rw [hcs, stripPlus_no_plus c cs hplus]
  rw [if_neg (by simp : ¬(c :: cs = []))]
  have hv : digitsVal 0 (c :: cs) = n := by
    rw [← hcs]
    exact natToChars_val n
  rw [parseDigitsAux_eq (c :: cs) 0 (by rw [← hcs]; exact hdig), hv]
  show (if n ≤ 65535 then some n else none) = some n
  rw [if_pos h]

theorem parse_u16_nil : parse_u16 [] = none := rfl

/-! ## Splitting and joining on newlines -/

theorem natToChars_no_nl (n : Nat) : '\n' ∉ natToChars n := by
  intro h
  exact absurd (natToChars_digits n '\n' h) (by decide)

theorem splitOnNl_ne_nil (s : List Char) : splitOnNl s ≠ [] := by
  cases s with
  | nil => simp [splitOnNl]
  | cons c rest =>
    unfold splitOnNl
    split
    · simp
    · split
      · simp
      · simp

theorem splitOnNl_no_nl (x : List Char) (h : '\n' ∉ x) : splitOnNl x = [x] := by
  induction x with
  | nil => rfl
  | cons c rest ih =>
    have hc : c ≠ '\n' := fun hcc => h (by rw [hcc]; exact List.mem_cons_self _ _)
    have hrest : '\n' ∉ rest := fun hr => h (List.mem_cons_of_mem c hr)
    unfold splitOnNl
    rw [if_neg hc, ih hrest]

theorem splitOnNl_append_cons (x t : List Char) (h : '\n' ∉ x) :
    splitOnNl (x ++ '\n' :: t) = x :: splitOnNl t := by
  induction x with
  | nil =>
    show splitOnNl ('\n' :: t) = [] :: splitOnNl t
    conv_lhs => unfold splitOnNl
    rw [if_pos rfl]
  | cons c rest ih =>
    have hc : c ≠ '\n' := fun hcc => h (by rw [hcc]; exact List.mem_cons_self _ _)
    have hrest : '\n' ∉ rest := fun hr => h (List.mem_cons_of_mem c hr)
    show splitOnNl (c :: (rest ++ '\n' :: t)) = (c :: rest) :: splitOnNl t
    conv_lhs => unfold splitOnNl
    rw [if_neg hc, ih hrest]

theorem splitOnNl_join (ls : List (List Char)) (hne : ls ≠ [])
    (h : ∀ l ∈ ls, '\n' ∉ l) : splitOnNl (joinNl ls) = ls := by
  induction ls with
  | nil => exact absurd rfl hne
  | cons x rest ih =>
    cases rest with
    | nil =>
      show splitOnNl (joinNl [x]) = [x]
      exact splitOnNl_no_nl x (h x (List.mem_cons_self _ _))
    | cons y rest2 =>
      show splitOnNl (x ++ '\n' :: joinNl (y :: rest2)) = x :: (y :: rest2)
      rw [splitOnNl_append_cons x _ (h x (List.mem_cons_self _ _)),
        ih (by simp) (fun l hl => h l (List.mem_cons_of_mem x hl))]

theorem splitOnNl_append_nl (s : List Char) :
    splitOnNl (s ++ ['\n']) = splitOnNl s ++ [[]] := by
  induction s with
  | nil =>
    show splitOnNl ['\n'] = [[]] ++ [[]]
    unfold splitOnNl
    rw [if_pos rfl]
    rfl
  | cons c rest ih =>
    show splitOnNl (c :: (rest ++ ['\n'])) = splitOnNl (c :: rest) ++ [[]]
    unfold splitOnNl
    by_cases hc : c = '\n'
    · rw [if_pos hc, if_pos hc, ih]
      rfl
    · rw [if_neg hc, if_neg hc, ih]
      obtain ⟨l, ls, hx⟩ : ∃ l ls, splitOnNl rest = l :: ls := by
        cases hx : splitOnNl rest with
        | nil => exact absurd hx (splitOnNl_ne_nil rest)
        | cons l ls => exact ⟨l, ls, rfl⟩
      rw [hx]
      rfl

/-! ## Parsing every line -/

theorem parseAll_map (codes : List Nat) (h : ∀ c ∈ codes, c ≤ 65535) :
    parseAll (codes.map natToChars) = some codes := by
  induction codes with
  | nil => rfl
  | cons c rest ih =>
    show parseAll (natToChars c :: rest.map natToChars) = _
    unfold parseAll
    rw [parse_u16_natToChars c (h c (List.mem_cons_self _ _)),
      ih (fun x hx => h x (List.mem_cons_of_mem c hx))]

theorem parseAll_last_fail (ls : List (List Char)) (x : List Char)
    (h : parse_u16 x = none) : parseAll (ls ++ [x]) = none := by
  induction ls with
  | nil =>
    show parseAll [x] = none
    unfold parseAll
    rw [h]
  | cons l rest ih =>
    show parseAll (l :: (rest ++ [x])) = none
    unfold parseAll
    rw [ih]
    cases parse_u16 l <;> rfl

/-! ## Claim C6: mapping-file round trip -/

/-- C6: for every non-empty sequence of 16-bit key codes,
`parse_from_file (as_file_string m) = Some m`: the serialization (one
decimal integer per line, newline-joined, no trailing newline) parses back
to exactly the same mapping. -/
theorem parse_serialize_roundtrip (codes : List Nat) (hne : codes ≠ [])
    (h16 : ∀ c ∈ codes, c ≤ 65535) :
    KeyMapping.parse_from_file (KeyMapping.as_file_string ⟨codes⟩) =
      some ⟨codes⟩ := by
  have h1 : splitOnNl (joinNl (codes.map natToChars)) =
      codes.map natToChars := by
    refine splitOnNl_join _ (by simpa using hne) ?_
    intro l hl
    rcases List.mem_map.mp hl with ⟨c, hc, rfl⟩
    exact natToChars_no_nl c
  unfold KeyMapping.parse_from_file KeyMapping.as_file_string
  rw [h1, parseAll_map codes h16]
  rfl

/-- Witness for `parse_serialize_roundtrip` on the mapping `[100, 200]`. -/
theorem parse_serialize_roundtrip_witness :
    (([100, 200] : List Nat) ≠ [] ∧
      ∀ c ∈ ([100, 200] : List Nat), c ≤ 65535) ∧
    KeyMapping.parse_from_file (KeyMapping.as_file_string ⟨[100, 200]⟩) =
      some ⟨[100, 200]⟩ :=
  ⟨⟨by decide, by decide⟩,
    parse_serialize_roundtrip [100, 200] (by decide) (by decide)⟩

/-! ## Claim C7: trailing newline -/

/-- C7, counterexample: the valid one-line mapping text `"0"` parses, but
with one extra trailing newline the parse fails (`None`) instead of
returning the same mapping as the claim states. -/
theorem trailing_newline_cex :
    KeyMapping.parse_from_file (KeyMapping.as_file_string ⟨[0]⟩) =
      some ⟨[0]⟩ ∧
    KeyMapping.parse_from_file
      (KeyMapping.as_file_string ⟨[0]⟩ ++ ['\n']) = none := by
  constructor
  · decide
  · decide

/-- C7, amended: `parse_from_file` tolerates no trailing blank line — for
every text, appending one trailing newline makes the parse fail, because the
empty trailing segment produced by `split("\n")` does not parse as a
`u16`. -/
theorem parse_trailing_newline_none (s : List Char) :
    KeyMapping.parse_from_file (s ++ ['\n']) = none := by
  unfold KeyMapping.parse_from_file
  rw [splitOnNl_append_nl s, parseAll_last_fail (splitOnNl s) [] parse_u16_nil]
  rfl

/-! ## Claim C8: `get_led` returns the first matching index -/

theorem getLedFrom_none_iff (codes : List Nat) (key : Nat) :
    ∀ idx, getLedFrom codes key idx = none ↔ key ∉ codes := by
  induction codes with
  | nil => intro idx; simp [getLedFrom]
  | cons c rest ih =>
    intro idx
    unfold getLedFrom
    by_cases hk : key = c
    · rw [if_pos hk]
      simp [hk]
    · rw [if_neg hk, ih (idx + 1)]
      simp [hk]

theorem getLedFrom_some (codes : List Nat) (key : Nat) :
    ∀ idx i, getLedFrom codes key idx = some i →
      idx ≤ i ∧ codes.get? (i - idx) = some key ∧
      ∀ j, j < i - idx → codes.get? j ≠ some key := by
  induction codes with
  | nil => intro idx i h; simp [getLedFrom] at h
  | cons c rest ih =>
    intro idx i h
    unfold getLedFrom at h
    by_cases hk : key = c
    · rw [if_pos hk] at h
      have hi : idx = i := by injection h
      refine ⟨by omega, ?_, ?_⟩
      · rw [← hi, Nat.sub_self]
        simp [hk]
      · intro j hj
        rw [← hi, Nat.sub_self] at hj
        omega
    · rw [if_neg hk] at h
      obtain ⟨h1, h2, h3⟩ := ih (idx + 1) i h
      refine ⟨by omega, ?_, ?_⟩
      · have hs : i - idx = (i - (idx + 1)) + 1 := by omega
        rw [hs]
        simpa using h2
      · intro j hj
        cases j with
        | zero =>
          intro hc
          have : c = key := by simpa using hc
          exact hk this.symm
        | succ j2 =>
          have hj2 : j2 < i - (idx + 1) := by omega
          simpa using h3 j2 hj2

/-- C8: `KeyMapping::get_led` returns `None` exactly when the key code is
absent from the mapping; when it returns `Some i`, index `i` holds the key
code and every lower index does not (the lowest matching index is the
defined tie-break); and when the code is present it does return `Some`. -/
theorem get_led_first_match (m : KeyMapping) (key : Nat) :
    (m.get_led key = none ↔ key ∉ m.codes) ∧
    (∀ i, m.get_led key = some i →
      m.codes.get? i = some key ∧ ∀ j, j < i → m.codes.get? j ≠ some key) ∧
    (key ∈ m.codes → ∃ i, m.get_led key = some i) := by
  refine ⟨getLedFrom_none_iff m.codes key 0, ?_, ?_⟩
  · intro i h
    obtain ⟨h1, h2, h3⟩ := getLedFrom_some m.codes key 0 i h
    rw [Nat.sub_zero] at h2
    exact ⟨h2, fun j hj => h3 j (by omega)⟩
  · intro hmem
    cases hx : m.get_led key with
    | none => exact absurd ((getLedFrom_none_iff m.codes key 0).mp hx) (by
        simpa using hmem)
    | some i => exact ⟨i, rfl⟩

/-- Witness for `get_led_first_match` on the mapping `[100, 200, 100]`
(duplicate code 100) and on an absent code 7. -/
theorem get_led_first_match_witness :
    ((100 : Nat) ∈ [100, 200, 100] ∧
      ∃ i, KeyMapping.get_led ⟨[100, 200, 100]⟩ 100 = some i) ∧
    (KeyMapping.get_led ⟨[100, 200, 100]⟩ 7 = none ↔
      (7 : Nat) ∉ [100, 200, 100]) :=
  ⟨⟨by decide, (get_led_first_match ⟨[100, 200, 100]⟩ 100).2.2 (by decide)⟩,
    (get_led_first_match ⟨[100, 200, 100]⟩ 7).1⟩

/-! ## Claim C9: `is_down` decoding -/

theorem getD_eq_get {α : Type} (l : List α) (i : Nat) (d : α)
    (h : i < l.length) : l.getD i d = l.get ⟨i, h⟩ := by
  induction l generalizing i with
  | nil => simp at h
  | cons a rest ih =>
    cases i with
    | zero => rfl
    | succ j => exact ih j (by simpa using h)

/-- C9: `KeyEvent::is_down` is true exactly when the report is at least 5
bytes long and its byte at offset 4 is nonzero; every report shorter than 5
bytes yields `false`.  The function is total on arbitrary byte vectors — the
short-circuit `&&` keeps the offset-4 read in bounds, so no report is an
error. -/
theorem is_down_iff (e : KeyEvent) :
    (e.is_down = true ↔
      ∃ h5 : 4 < e.bytes.length, e.bytes.get ⟨4, h5⟩ ≠ 0) ∧
    (e.bytes.length < 5 → e.is_down = false) := by
  constructor
  · constructor
    · intro h
      rw [KeyEvent.is_down, Bool.and_eq_true, decide_eq_true_iff,
        decide_eq_true_iff] at h
      obtain ⟨h5, h4⟩ := h
      have h5b : 4 < e.bytes.length := by omega
      refine ⟨h5b, ?_⟩
      rw [← getD_eq_get e.bytes 4 0 h5b]
      omega
    · intro hex
      obtain ⟨h5, h4⟩ := hex
      rw [KeyEvent.is_down, Bool.and_eq_true, decide_eq_true_iff,
        decide_eq_true_iff]
      refine ⟨by omega, ?_⟩
      rw [getD_eq_get e.bytes 4 0 h5]
      omega
  · intro hlen
    have h5 : ¬(5 ≤ e.bytes.length) := by omega
    rw [KeyEvent.is_down]
    simp [h5]

/-- Witness for `is_down_iff`: a 5-byte report with nonzero byte 4 is down;
a 3-byte report is not. -/
theorem is_down_iff_witness :
    KeyEvent.is_down ⟨[0, 0, 200, 0, 1]⟩ = true ∧
    KeyEvent.is_down ⟨[1, 2, 3]⟩ = false :=
  ⟨(is_down_iff ⟨[0, 0, 200, 0, 1]⟩).1.mpr ⟨by decide, by decide⟩,
    (is_down_iff ⟨[1, 2, 3]⟩).2 (by decide)⟩

/-! ## Claim C10: `key_bytes` bounds and the unguarded calibration call -/

theorem get?_none_iff {α : Type} (l : List α) (i : Nat) :
    l.get? i = none ↔ l.length ≤ i := by
  induction l generalizing i with
  | nil => simp
  | cons a rest ih =>
    cases i with
    | zero => simp
    | succ j =>
      show rest.get? j = none ↔ _
      rw [ih j]
      simp

theorem key_bytes_isSome_of_is_down (e : KeyEvent) (h : e.is_down = true) :
    (e.key_bytes).isSome = true := by
  rw [KeyEvent.is_down, Bool.and_eq_true, decide_eq_true_iff,
    decide_eq_true_iff] at h
  obtain ⟨h5, _⟩ := h
  unfold KeyEvent.key_bytes
  rcases h2 : e.bytes.get? 2 with _ | lo
  · rw [get?_none_iff] at h2
    omega
  · rcases h3 : e.bytes.get? 3 with _ | hi
    · rw [get?_none_iff] at h3
      omega
    · rfl

/-- C10: `KeyEvent::key_bytes` indexes bytes 2 and 3 unconditionally, so it
panics (modelled as `none`) exactly for reports shorter than 4 bytes; it is
safe whenever `is_down()` returned true (which implies length ≥ 5 ≥ 4) —
the guard order of the frame driver's event loop — but the calibration
loop of `setup_device` calls it on every report with no such guard, so a
short report makes the calibration step panic. -/
theorem key_bytes_bounds (e : KeyEvent) :
    (e.key_bytes = none ↔ e.bytes.length < 4) ∧
    (e.is_down = true → (e.key_bytes).isSome = true) ∧
    (∀ seen, e.bytes.length < 4 → calibStep seen e = none) := by
  have hiff : e.key_bytes = none ↔ e.bytes.length < 4 := by
    unfold KeyEvent.key_bytes
    rcases h2 : e.bytes.get? 2 with _ | lo
    · rw [get?_none_iff] at h2
      constructor
      · intro _; omega
      · intro _; rfl
    · rcases h3 : e.bytes.get? 3 with _ | hi
      · rw [get?_none_iff] at h3
        constructor
        · intro _; omega
        · intro _; rfl
      · have h3b : ¬(e.bytes.length ≤ 3) := by
          intro hc
          rw [(get?_none_iff e.bytes 3).mpr hc] at h3
          exact Option.noConfusion h3
        constructor
        · intro hc; exact Option.noConfusion hc
        · intro hc; omega
  refine ⟨hiff, key_bytes_isSome_of_is_down e, ?_⟩
  intro seen hlen
  unfold calibStep
  rw [hiff.mpr hlen]

/-- Witness for `key_bytes_bounds`: a 2-byte report makes `key_bytes` panic
and the unguarded calibration step with it panics; a 5-byte down report is
safe. -/
theorem key_bytes_bounds_witness :
    (KeyEvent.key_bytes ⟨[1, 2]⟩ = none ↔
      (KeyEvent.mk [1, 2]).bytes.length < 4) ∧
    calibStep [] ⟨[1, 2]⟩ = none ∧
    (KeyEvent.is_down ⟨[0, 0, 200, 0, 1]⟩ = true →
      (KeyEvent.key_bytes ⟨[0, 0, 200, 0, 1]⟩).isSome = true) :=
  ⟨(key_bytes_bounds ⟨[1, 2]⟩).1,
    (key_bytes_bounds ⟨[1, 2]⟩).2.2 [] (by decide),
    (key_bytes_bounds ⟨[0, 0, 200, 0, 1]⟩).2.1⟩

end OpenRgbFade
